import Mathlib

/-!
# Verification of the ThinkR retrieval core

A shallow embedding, in Lean 4, of the retrieval pipeline of the ThinkR
chatbot repository:

* `PDFProcessor.chunk_text` / `PDFProcessor._split_into_sentences`
  (`thinkr_chatbot/core/pdf_processor.py`) — sentence segmentation with
  R code-fence extraction, and greedy chunking with an overlap window;
* `VectorStore` (`thinkr_chatbot/core/vector_store.py`) — a FAISS-backed
  vector store: construction/loading, persistence, `add_documents`,
  `similarity_search`, `search_with_context`, `clear_index`,
  `get_index_stats`.

Python strings are modelled as `List Char`; machine floats (similarity
scores, thresholds) are modelled as rationals.  The FAISS padding
sentinel for missing neighbours is the finite float `-FLT_MAX` and is
modelled as exactly that rational value, so callers can pass thresholds
at or below it.  The sentence-transformer encoder is an uninterpreted
parameter.  Fallible operations return `Except`.
-/

namespace ThinkR

/-- Python strings, modelled as lists of characters. -/
abbrev Str := List Char

/-- Membership in Python's whitespace class `\s` (the ASCII part:
space, tab, newline, carriage return, vertical tab, form feed). -/
def isWS (c : Char) : Bool :=
  c = ' ' || c = '\t' || c = '\n' || c = '\r' || c.toNat = 11 || c.toNat = 12

/-- Drop leading whitespace (half of Python's `str.strip`). -/
def trimL (s : Str) : Str := s.dropWhile isWS

/-- Drop trailing whitespace (the other half of `str.strip`). -/
def trimR (s : Str) : Str := (s.reverse.dropWhile isWS).reverse

/-- Python's `str.strip()`. -/
def trim (s : Str) : Str := trimL (trimR s)

/-- Sentence-ending punctuation, the class `[.!?]` of the splitting regex. -/
def isSentEnd (c : Char) : Bool := c = '.' || c = '!' || c = '?'

/-- Whether the character preceding the current scan position (if any)
ends a sentence — the lookbehind `(?<=[.!?])` of the splitting regex. -/
def prevEnds : Option Char → Bool
  | some p => isSentEnd p
  | none => false

/-- The scanner behind `re.split(r'(?<=[.!?])\s+', text)`: walk the text
keeping the current piece `cur` and the previously consumed character;
a whitespace character preceded by `.`, `!` or `?` starts a separator,
which greedily swallows the whole whitespace run.  The `fuel` argument
makes the recursion structural; every step consumes at least one
character, so fuel equal to the text length (as the wrapper passes)
never runs out. -/
def splitSentGo : Nat → Str → Option Char → Str → List Str
  | _, cur, _, [] => [cur]
  | 0, cur, _, rem => [cur ++ rem]
  | n + 1, cur, prev, c :: rest =>
    if isWS c && prevEnds prev then
      cur :: splitSentGo n [] none (rest.dropWhile isWS)
    else
      splitSentGo n (cur ++ [c]) (some c) rest

/-- `re.split(r'(?<=[.!?])\s+', text)` (pieces, separators removed). -/
def splitSent (text : Str) : List Str := splitSentGo text.length [] none text

/-- The literal placeholder `'CODE_BLOCK_PLACEHOLDER'`. -/
def PH : Str := "CODE_BLOCK_PLACEHOLDER".data

/-- Scan for the earliest occurrence of the closing fence `"\n```"`:
returns the non-greedy group `(.*?)` content before it and the text after
the full match (the lazy tail of the pattern `(.*?)\n`three-backticks). -/
def findClose : Str → Option (Str × Str)
  | [] => none
  | c :: rest =>
    if ('\n' :: '`' :: '`' :: '`' :: ([] : Str)).isPrefixOf (c :: rest) then
      some ([], rest.drop 3)
    else
      (findClose rest).map (fun p => (c :: p.1, p.2))

/-- The indices of `'\n'` inside the leading whitespace run, in descending
order: the candidate stopping points of the greedy, backtracking `\s*`
before the mandatory `\n`. -/
def nlCandidates (run : Str) : List Nat :=
  ((List.range run.length).filter (fun j => run.getD j ' ' = '\n')).reverse

/-- Backtracking over the candidate newlines: for each stopping point `j`
(largest first) look for the earliest closing fence in the remainder;
the first candidate that closes wins. -/
def tryCandidates (rest : Str) : List Nat → Option (Str × Str)
  | [] => none
  | j :: js =>
    match findClose (rest.drop (j + 1)) with
    | some r => some r
    | none => tryCandidates rest js

/-- Try to match the Python regex `` ```r\s*\n(.*?)\n``` `` (DOTALL) at the
head of `s`: on success return the captured inner content and the text
following the whole match. -/
def matchFenceAt (s : Str) : Option (Str × Str) :=
  if ('`' :: '`' :: '`' :: 'r' :: ([] : Str)).isPrefixOf s then
    let rest := s.drop 4
    tryCandidates rest (nlCandidates (rest.takeWhile isWS))
  else none

/-- One combined scan implementing both `re.findall(code_pattern, text)`
(the list of captured inner contents) and
`re.sub(code_pattern, 'CODE_BLOCK_PLACEHOLDER', text)` (the rewritten
text): both Python calls run the same pattern over the same text, so
their non-overlapping left-to-right matches coincide.  The structural
`fuel` argument never runs out when set to the text length, since every
step consumes at least one character. -/
def scanFencesGo : Nat → Str → List Str × Str
  | _, [] => ([], [])
  | 0, s => ([], s)
  | n + 1, c :: rest =>
    match matchFenceAt (c :: rest) with
    | some (content, tail) =>
      let p := scanFencesGo n tail
      (content :: p.1, PH ++ p.2)
    | none =>
      let p := scanFencesGo n rest
      (p.1, c :: p.2)

/-- The combined findall/sub scan over the whole text. -/
def scanFences (text : Str) : List Str × Str := scanFencesGo text.length text

/-- `re.findall(code_pattern, text, re.DOTALL)` — inner contents of the
fenced R code blocks. -/
def findCodeBlocks (text : Str) : List Str := (scanFences text).1

/-- `re.sub(code_pattern, 'CODE_BLOCK_PLACEHOLDER', text)`. -/
def subCodeBlocks (text : Str) : Str := (scanFences text).2

/-- Python's `str.replace(pat, rep)` for a non-empty pattern: replace
non-overlapping occurrences left to right (the call site always passes
the non-empty placeholder).  Structural fuel, never exhausted when set
to the text length. -/
def replaceAllGo : Nat → Str → Str → Str → Str
  | _, _, _, [] => []
  | 0, _, _, s => s
  | n + 1, pat, rep, c :: rest =>
    if pat.isPrefixOf (c :: rest) ∧ pat ≠ [] then
      rep ++ replaceAllGo n pat rep ((c :: rest).drop pat.length)
    else
      c :: replaceAllGo n pat rep rest

/-- `s.replace(pat, rep)`. -/
def replaceAll (pat rep s : Str) : Str := replaceAllGo s.length pat rep s

/-- The restore loop of `_split_into_sentences`: walk the pieces with a
running `code_index`; a piece containing the placeholder has every
placeholder occurrence replaced by the current code block, provided
blocks remain. -/
def restoreBlocks (blocks : List Str) : List Str → Nat → List Str
  | [], _ => []
  | s :: rest, ci =>
    if PH <:+: s then
      if ci < blocks.length then
        replaceAll PH (blocks.getD ci []) s :: restoreBlocks blocks rest (ci + 1)
      else
        s :: restoreBlocks blocks rest ci
    else
      s :: restoreBlocks blocks rest ci

/-- `PDFProcessor._split_into_sentences`: extract fenced R code blocks,
split the placeholder text into sentences, restore the blocks, then keep
the stripped non-empty pieces. -/
def splitIntoSentences (text : Str) : List Str :=
  let p := scanFences text
  ((restoreBlocks p.1 (splitSent p.2) 0).map trim).filter (· ≠ [])

/-- One element of the `text_content` list fed to `chunk_text`
(a page record produced by the PDF extraction): `page_data['text']`,
`page_data['page']` and the `page_data.get('filename', '')` lookup. -/
structure PageText where
  page : Nat
  text : Str
  filename : Option Str
deriving DecidableEq, Repr

/-- One chunk emitted by `PDFProcessor.chunk_text` (its `metadata` dict
carries `source` and a copy of `page`). -/
structure Chunk where
  text : Str
  page : Nat
  start_sentence : Nat
  end_sentence : Nat
  source : Str
deriving DecidableEq, Repr

/-- `" ".join(xs)`. -/
def joinSp (xs : List Str) : Str := List.intercalate [' '] xs

/-- The per-page accumulation loop of `chunk_text`, transliterated: `all`
is the full sentence list (for the slice `sentences[max(0, i - overlap //
50):i]`), the remaining sentences are walked with their index `i`, `cur`
is `current_chunk` and `startS` is `chunk_start_sentence`.  Note
Python's `max(0, i - k)` is `Nat` subtraction, and the overlap window is
joined without a trailing space before `sentence + " "` is appended. -/
def chunkLoop (cs ov : Nat) (pg : PageText) (all : List Str) :
    List Str → Nat → Str → Nat → List Chunk
  | [], _, cur, startS =>
    if trim cur ≠ [] then
      [{ text := trim cur, page := pg.page, start_sentence := startS,
         end_sentence := all.length - 1, source := pg.filename.getD [] }]
    else []
  | s :: rest, i, cur, startS =>
    if cs < cur.length + s.length ∧ cur ≠ [] then
      let a := i - ov / 50
      { text := trim cur, page := pg.page, start_sentence := startS,
        end_sentence := i - 1, source := pg.filename.getD [] } ::
        chunkLoop cs ov pg all rest (i + 1)
          (joinSp ((all.take i).drop a) ++ s ++ [' ']) a
    else
      chunkLoop cs ov pg all rest (i + 1) (cur ++ s ++ [' ']) startS

/-- `chunk_text` restricted to one page of `text_content`. -/
def chunkTextPage (cs ov : Nat) (pg : PageText) : List Chunk :=
  chunkLoop cs ov pg (splitIntoSentences pg.text) (splitIntoSentences pg.text) 0 [] 0

/-- `PDFProcessor.chunk_text`: per-page greedy chunking over the sentence
units, pages processed in order. -/
def chunkText (cs ov : Nat) (pages : List PageText) : List Chunk :=
  (pages.map (chunkTextPage cs ov)).flatten

/-! ## The vector store (`thinkr_chatbot/core/vector_store.py`) -/

/-- An embedding vector; FAISS `IndexFlatIP` scores are exact inner
products, so vectors are sequences of (rational-modelled) floats. -/
abbrev Vec := List ℚ

/-- The inner product computed by `IndexFlatIP`. -/
def dot (u v : Vec) : ℚ := ((u.zip v).map (fun p => p.1 * p.2)).sum

/-- A similarity score as it appears in a FAISS result row. -/
abbrev Score := ℚ

/-- The largest finite `float32`, `(2^24 - 1) * 2^104`
(≈ 3.4028235e38): FAISS pads the score of a missing neighbour with its
negation, a finite value an ordinary caller threshold can undercut. -/
def FLT_MAX : ℚ := 340282346638528859811704183484516925440

/-- The metadata dict attached to a stored chunk, restricted to the keys
the store reads (`source`, `page`, `title`); `none` models an absent
key. -/
structure Metadata where
  source : Option Str
  page : Option Int
  title : Option Str
deriving DecidableEq, Repr

/-- One element of the `documents` list passed to `add_documents`:
`doc['text']` and `doc.get('metadata', {})`. -/
structure Doc where
  text : Str
  metadata : Metadata
deriving DecidableEq, Repr

/-- The in-memory state of `VectorStore`: the FAISS index contents
(`index.ntotal = vecs.length`) and the parallel `metadata` list.  The
embedding dimension and model name are construction-time constants and
are not modelled. -/
structure VectorStore where
  vecs : List Vec
  metadata : List Metadata
deriving DecidableEq, Repr

/-- The persisted pair of artifacts at `index_path`: `faiss_index.bin`
and `metadata.pkl`.  The outer `Option` is file existence; the inner
`Option` is readability (`none` models a file whose load raises). -/
structure Disk where
  indexFile : Option (Option (List Vec))
  metaFile : Option (Option (List Metadata))
deriving DecidableEq, Repr

/-- The spec's construction-time failure (`IndexLoadError`); declared so
that the load contract can be stated, the transliterated code never
produces it. -/
inductive IndexLoadError
  | countMismatch
  | missingCounterpart
deriving DecidableEq, Repr

/-- The spec's persistence failure (`IndexIOError`); declared so that
the write-through contract can be stated. -/
inductive IndexWriteError
  | writeFailed
deriving DecidableEq, Repr

/-- `VectorStore._load_existing_index`: when both files exist, read them
into the store; any read failure is caught and the store is
re-initialized empty; when either file is missing the fresh empty store
is kept silently. -/
def loadExistingIndex (d : Disk) : VectorStore :=
  match d.indexFile, d.metaFile with
  | some fi, some fm =>
    match fi, fm with
    | some v, some m => ⟨v, m⟩
    | _, _ => ⟨[], []⟩
  | _, _ => ⟨[], []⟩

/-- `VectorStore.__init__` (restricted to index state): start empty, then
`_load_existing_index`.  The `Except` codomain records that construction
can in principle signal `IndexLoadError`; the transliteration always
succeeds. -/
def construct (d : Disk) : Except IndexLoadError VectorStore :=
  .ok (loadExistingIndex d)

/-- The on-disk image `_save_index` writes for a store. -/
def writeDisk (st : VectorStore) : Disk :=
  ⟨some (some st.vecs), some (some st.metadata)⟩

/-- `VectorStore._save_index`: two sequential writes inside one `try` —
`faiss.write_index` to `faiss_index.bin`, then the metadata pickle to
`metadata.pkl`.  `wIndexOk`/`wMetaOk` say whether each write succeeds;
the first failure raises, skipping the rest, and the exception is caught
and merely logged, signalling nothing to the caller.  A failure of the
second write therefore leaves a half-updated disk: index file written,
metadata file stale. -/
def saveIndex (wIndexOk wMetaOk : Bool) (st : VectorStore) (d : Disk) : Disk :=
  if wIndexOk then
    if wMetaOk then ⟨some (some st.vecs), some (some st.metadata)⟩
    else ⟨some (some st.vecs), d.metaFile⟩
  else d

/-- `VectorStore.add_documents`: early-return on an empty batch or when
no document has non-whitespace text; otherwise encode the kept texts,
extend vectors and metadata positionally, and `_save_index`. -/
def addDocuments (enc : Str → Vec) (wIndexOk wMetaOk : Bool) (st : VectorStore)
    (d : Disk) (docs : List Doc) : Except IndexWriteError (VectorStore × Disk) :=
  if docs = [] then .ok (st, d)
  else
    let kept := docs.filter (fun doc => trim doc.text ≠ [])
    if kept = [] then .ok (st, d)
    else
      let st' : VectorStore :=
        ⟨st.vecs ++ kept.map (fun doc => enc doc.text),
         st.metadata ++ kept.map (fun doc => doc.metadata)⟩
      .ok (st', saveIndex wIndexOk wMetaOk st' d)

/-- `VectorStore.clear_index`: replace the index and metadata by fresh
empty ones and `_save_index`. -/
def clearIndex (wIndexOk wMetaOk : Bool) (_st : VectorStore) (d : Disk) :
    Except IndexWriteError (VectorStore × Disk) :=
  .ok (⟨[], []⟩, saveIndex wIndexOk wMetaOk ⟨[], []⟩ d)

/-- The two counts reported by `VectorStore.get_index_stats`
(`dimension` and `model_name` are construction constants). -/
structure Stats where
  total_documents : Nat
  index_size : Nat
deriving DecidableEq, Repr

/-- `VectorStore.get_index_stats`. -/
def getIndexStats (st : VectorStore) : Stats :=
  ⟨st.metadata.length, st.vecs.length⟩

/-- Stable insertion: place `a` before the first element `b` with
`le a b` (so after every earlier element tied with `a`). -/
def insertS {α : Type} (le : α → α → Bool) (a : α) : List α → List α
  | [] => [a]
  | b :: l => if le a b then a :: b :: l else b :: insertS le a l

/-- A stable sort (insertion sort).  A stable sort of a list by a total
preorder is unique, so this models both Python's stable `list.sort` and
the deterministic row order of FAISS flat search. -/
def stableSort {α : Type} (le : α → α → Bool) : List α → List α
  | [] => []
  | a :: l => insertS le a (stableSort le l)

/-- Row order used by this model of FAISS flat search: inner product
descending.  The backend returns rows sorted by score; its order among
EQUAL scores is an unspecified implementation detail of the heap, so the
ascending-id tie-break here is only an arbitrary-but-fixed
determinization that makes the model executable — no claim theorem
relies on it. -/
def faissLE (a b : ℚ × Nat) : Bool :=
  decide (b.1 < a.1 ∨ (a.1 = b.1 ∧ a.2 ≤ b.2))

/-- `IndexFlatIP.search` for one query: exact inner products against all
stored vectors, the `k` best rows sorted by score descending (ties in
the model's fixed but backend-unspecified order), padded to exactly `k`
rows with the sentinel row `(-FLT_MAX, -1)` when fewer than `k` vectors
are stored. -/
def faissSearch (index : List Vec) (q : Vec) (k : Nat) : List (Score × Int) :=
  let scored := index.enum.map (fun p => (dot q p.2, p.1))
  let top := (stableSort faissLE scored).take k
  top.map (fun p => ((p.1 : Score), (p.2 : Int)))
    ++ List.replicate (k - top.length) ((-FLT_MAX : Score), (-1 : Int))

/-- The error FAISS raises when `Index::search` is called with a
non-positive `k` (`FAISS_THROW_IF_NOT(k > 0)`); `similarity_search` has
no guard of its own for this. -/
inductive SearchErr
  | nonPositiveK
deriving DecidableEq, Repr

/-- One element of the list returned by `similarity_search`. -/
structure SearchResult where
  score : Score
  metadata : Metadata
  index : Int
deriving DecidableEq, Repr

/-- Python list indexing `l[i]` (negative indices count from the end). -/
def pyGet (l : List Metadata) (i : Int) : Option Metadata :=
  if 0 ≤ i then l.get? i.toNat
  else if 0 ≤ i + l.length then l.get? (i + l.length).toNat
  else none

/-- The key order of the final `results.sort(key=score, reverse=True)`:
a stable descending sort on the score alone. -/
def resLE (a b : SearchResult) : Bool :=
  decide (b.score ≤ a.score)

/-- The body of the result loop of `similarity_search`: keep a FAISS row
when `idx < len(self.metadata)` and `score >= threshold`, building the
result record from the row and the metadata at `idx`.  Note the index
test has no lower bound, so the padding row `-1` is rejected only when
the threshold exceeds its sentinel score. -/
def searchKeep (st : VectorStore) (threshold : ℚ) (p : Score × Int) :
    Option SearchResult :=
  if p.2 < (st.metadata.length : Int) ∧ threshold ≤ p.1 then
    (pyGet st.metadata p.2).map (fun m => ⟨p.1, m, p.2⟩)
  else none

/-- `VectorStore.similarity_search`: empty/whitespace query short-circuits
to `[]`; otherwise the query is encoded, FAISS is searched (raising if
`k ≤ 0`), rows are kept when `idx < len(metadata)` and
`score >= threshold`, and the kept rows are stably re-sorted by score
descending. -/
def similaritySearch (enc : Str → Vec) (st : VectorStore) (query : Str) (k : Int)
    (threshold : ℚ) : Except SearchErr (List SearchResult) :=
  if trim query = [] then .ok []
  else if k ≤ 0 then .error .nonPositiveK
  else
    .ok (stableSort resLE ((faissSearch st.vecs (enc query) k.toNat).filterMap
      (searchKeep st threshold)))

/-- The decimal digits of a natural number (`str(n)` for `n : Nat`). -/
def natToStr (n : Nat) : Str := Nat.toDigits 10 n

/-- Python `str` of an integer. -/
def intToStr (i : Int) : Str :=
  if i < 0 then '-' :: natToStr i.natAbs else natToStr i.natAbs

/-- Three decimal digits with leading zeros. -/
def pad3 (r : Nat) : Str :=
  List.replicate (3 - (natToStr r).length) '0' ++ natToStr r

/-- Round the fraction `n / d` (with `d > 0`) to the nearest integer,
halves to even — how float formatting rounds. -/
def roundHalfEvenFrac (n : Int) (d : Nat) : Int :=
  let q := Int.fdiv n d
  let r := n - q * d
  if 2 * r < (d : Int) then q
  else if (d : Int) < 2 * r then q + 1
  else if 2 ∣ q then q else q + 1

/-- The f-string conversion `{score:.3f}`: round `score * 1000`
(`= num * 1000 / den`) to the nearest integer and print it with three
digits after the point. -/
def fmt3 (q : Score) : Str :=
  let m := roundHalfEvenFrac (q.num * 1000) q.den
  (if m < 0 then ['-'] else [])
    ++ natToStr (m.natAbs / 1000) ++ ['.'] ++ pad3 (m.natAbs % 1000)

/-- A citation record built by `search_with_context`. -/
structure Reference where
  module : Str
  page : Str
  score : Score
  source : Str
deriving DecidableEq, Repr

/-- `metadata.get('source', 'Unknown Source')`. -/
def mdSource (m : Metadata) : Str := m.source.getD "Unknown Source".data

/-- `metadata.get('title', '')`. -/
def mdTitle (m : Metadata) : Str := m.title.getD []

/-- How the f-string renders `metadata.get('page', '')`: the empty string
for an absent key, the decimal digits otherwise. -/
def mdPageRender (m : Metadata) : Str :=
  match m.page with
  | none => []
  | some p => intToStr p

/-- `str(page) if page else ''`: Python truthiness makes both an absent
key and page `0` render empty. -/
def mdPageRef (m : Metadata) : Str :=
  match m.page with
  | none => []
  | some p => if p = 0 then [] else intToStr p

/-- The context line
`f"[Reference {i+1}] {title} - Page {page} (Relevance: {score:.3f})"`. -/
def contextLine (i : Nat) (r : SearchResult) : Str :=
  "[Reference ".data ++ natToStr (i + 1) ++ "] ".data ++ mdTitle r.metadata
    ++ " - Page ".data ++ mdPageRender r.metadata
    ++ " (Relevance: ".data ++ fmt3 r.score ++ ")".data

/-- The reference record built per result. -/
def mkReference (r : SearchResult) : Reference :=
  { module := if mdTitle r.metadata ≠ [] then mdTitle r.metadata else mdSource r.metadata
    page := mdPageRef r.metadata
    score := r.score
    source := mdSource r.metadata }

/-- `VectorStore.search_with_context`: run `similarity_search`; an empty
result list yields `("", [])`; otherwise one context line and one
reference per result, lines joined with `"\n"`. -/
def searchWithContext (enc : Str → Vec) (st : VectorStore) (query : Str) (k : Int)
    (threshold : ℚ) : Except SearchErr (Str × List Reference) :=
  match similaritySearch enc st query k threshold with
  | .error e => .error e
  | .ok results =>
    if results = [] then .ok ([], [])
    else
      .ok (List.intercalate ['\n'] (results.enum.map (fun p => contextLine p.1 p.2)),
        results.map mkReference)

/-! ## Lemmas: trimming and whitespace -/

theorem trim_length_le (s : Str) : (trim s).length ≤ s.length := by
  have h1 : (trimL (trimR s)).length ≤ (trimR s).length :=
    (List.dropWhile_sublist isWS).length_le
  have h2 : (trimR s).length ≤ s.length := by
    unfold trimR
    rw [List.length_reverse]
    have := (List.dropWhile_sublist (l := s.reverse) isWS).length_le
    simpa using this
  exact le_trans h1 h2

theorem trimR_append_space (t : Str) : trimR (t ++ [' ']) = trimR t := by
  unfold trimR
  rw [List.reverse_append]
  simp [List.dropWhile_cons, isWS]

theorem trim_append_space (t : Str) : trim (t ++ [' ']) = trim t := by
  unfold trim
  rw [trimR_append_space]

/-- A non-empty string whose first and last characters are not whitespace
(the shape of every unit emitted by `_split_into_sentences`). -/
def cleanEnds (x : Str) : Prop :=
  x ≠ [] ∧ (∀ c, x.head? = some c → isWS c = false) ∧
    (∀ c, x.getLast? = some c → isWS c = false)

theorem head?_dropWhile {p : Char → Bool} {l : Str} {c : Char}
    (h : (l.dropWhile p).head? = some c) : p c = false := by
  induction l with
  | nil => simp [List.dropWhile] at h
  | cons a rest ih =>
    rw [List.dropWhile_cons] at h
    by_cases ha : p a = true
    · rw [if_pos ha] at h; exact ih h
    · rw [if_neg ha] at h
      simp at h
      subst h
      simpa using ha

theorem dropWhile_nil_of_all {p : Char → Bool} {l : Str}
    (h : ∀ c ∈ l, p c = true) : l.dropWhile p = [] := by
  induction l with
  | nil => rfl
  | cons a rest ih =>
    rw [List.dropWhile_cons, if_pos (h a (List.mem_cons_self a rest))]
    exact ih (fun c hc => h c (List.mem_cons_of_mem a hc))

theorem cleanEnds_trim {s : Str} (h : trim s ≠ []) : cleanEnds (trim s) := by
  refine ⟨h, ?_, ?_⟩
  · intro c hc
    unfold trim trimL at hc
    exact head?_dropWhile hc
  · intro c hc
    have hlast : (trimR s).getLast? = some c := by
      obtain ⟨u, hu⟩ := List.dropWhile_suffix (l := trimR s) isWS
      unfold trim trimL at hc
      rw [← hu, List.getLast?_append, hc]
      rfl
    rw [List.getLast?_eq_head?_reverse] at hlast
    unfold trimR at hlast
    rw [List.reverse_reverse] at hlast
    exact head?_dropWhile hlast

theorem cleanEnds_of_trim_eq {c : Str} (h : trim c = c) (h2 : c ≠ []) :
    cleanEnds c := by
  have := cleanEnds_trim (s := c) (by rw [h]; exact h2)
  rwa [h] at this

theorem infix_dropWhile {p : Char → Bool} {x : Str} (hx : x ≠ [])
    (hh : ∀ c, x.head? = some c → p c = false) (u v : Str) :
    x <:+: (u ++ (x ++ v)).dropWhile p := by
  rw [List.dropWhile_append]
  split
  · obtain ⟨a, x', rfl⟩ := List.exists_cons_of_ne_nil hx
    rw [List.cons_append, List.dropWhile_cons, if_neg (by simp [hh a rfl])]
    exact ⟨[], v, by simp⟩
  · exact ⟨List.dropWhile p u, v, by simp⟩

theorem infix_trimL_of_head {x y : Str} (hx : x ≠ [])
    (hh : ∀ c, x.head? = some c → isWS c = false) (h : x <:+: y) :
    x <:+: trimL y := by
  obtain ⟨u, v, rfl⟩ := h
  unfold trimL
  rw [List.append_assoc]
  exact infix_dropWhile hx hh u v

theorem infix_trimR_of_last {x y : Str} (hx : x ≠ [])
    (hl : ∀ c, x.getLast? = some c → isWS c = false) (h : x <:+: y) :
    x <:+: trimR y := by
  obtain ⟨u, v, rfl⟩ := h
  unfold trimR
  rw [← List.reverse_infix, List.reverse_reverse]
  rw [List.reverse_append, List.reverse_append]
  have hx' : x.reverse ≠ [] := by simpa using hx
  have hh' : ∀ c, x.reverse.head? = some c → isWS c = false := by
    intro c hc
    rw [← List.getLast?_eq_head?_reverse] at hc
    exact hl c hc
  exact infix_dropWhile hx' hh' v.reverse u.reverse

theorem infix_trim_of_cleanEnds {x y : Str} (hx : cleanEnds x) (h : x <:+: y) :
    x <:+: trim y := by
  unfold trim
  exact infix_trimL_of_head hx.1 hx.2.1 (infix_trimR_of_last hx.1 hx.2.2 h)

theorem trim_ne_nil_of_mem {y : Str} {c : Char} (hc : c ∈ y)
    (hw : isWS c = false) : trim y ≠ [] := by
  intro h0
  have hcr : c ∈ trimR y := by
    unfold trimR
    rw [List.mem_reverse]
    have hsplit := List.takeWhile_append_dropWhile (p := isWS) (l := y.reverse)
    have hcrev : c ∈ y.reverse := List.mem_reverse.mpr hc
    rw [← hsplit] at hcrev
    rcases List.mem_append.mp hcrev with h | h
    · exact absurd (List.mem_takeWhile_imp h) (by simp [hw])
    · exact h
  unfold trim trimL at h0
  have hall := List.dropWhile_eq_nil_iff.mp h0
  rw [hall c hcr] at hw
  simp at hw

/-! ## Lemmas: a whitespace-free string cannot straddle a separator -/

theorem infix_append_ws_single {x A B : Str} {w : Char}
    (hxws : ∀ ch ∈ x, isWS ch = false) (hw : isWS w = true)
    (h : x <:+: A ++ w :: B) : x <:+: A ∨ x <:+: B := by
  obtain ⟨s, t, hst⟩ := h
  have hlen : s.length + x.length + t.length = A.length + 1 + B.length := by
    have := congrArg List.length hst
    simp [List.length_append] at this
    omega
  by_cases h1 : s.length + x.length ≤ A.length
  · left
    have hpre1 : (s ++ x) <+: A ++ w :: B := ⟨t, hst⟩
    have hpre2 : A <+: A ++ w :: B := ⟨w :: B, rfl⟩
    have hsx : s ++ x <+: A :=
      List.prefix_of_prefix_length_le hpre1 hpre2 (by simp [List.length_append]; omega)
    exact ((List.suffix_append s x).isInfix).trans hsx.isInfix
  · by_cases h2 : A.length + 1 ≤ s.length
    · right
      have hsuf1 : (x ++ t) <:+ A ++ w :: B := ⟨s, by rw [← List.append_assoc, hst]⟩
      have hsuf2 : B <:+ A ++ w :: B := ⟨A ++ [w], by simp⟩
      have hxt : x ++ t <:+ B :=
        List.suffix_of_suffix_length_le hsuf1 hsuf2 (by simp [List.length_append]; omega)
      exact ((List.prefix_append x t).isInfix).trans hxt.isInfix
    · exfalso
      push_neg at h1 h2
      have hsl : s.length ≤ A.length := by omega
      have hj : A.length - s.length < x.length := by omega
      have hst' : s ++ (x ++ t) = A ++ w :: B := by rw [← List.append_assoc, hst]
      have hget : x[A.length - s.length]? = some w := by
        have e1 : (s ++ (x ++ t))[A.length]? = (A ++ w :: B)[A.length]? := by rw [hst']
        rw [List.getElem?_append_right hsl, List.getElem?_append_left (by omega),
          List.getElem?_append_right (le_refl A.length)] at e1
        simpa using e1
      have hmem : w ∈ x := by
        have := List.getElem?_eq_getElem hj
        rw [this] at hget
        have hww : x[A.length - s.length] = w := by simpa using hget
        rw [← hww]
        exact List.getElem_mem hj
      rw [hxws w hmem] at hw
      simp at hw

theorem infix_append_ws_run {x : Str} (hx : x ≠ [])
    (hxws : ∀ ch ∈ x, isWS ch = false) :
    ∀ (W A B : Str), W ≠ [] → (∀ ch ∈ W, isWS ch = true) →
      x <:+: A ++ (W ++ B) → x <:+: A ∨ x <:+: B := by
  intro W
  induction W with
  | nil => intro A B hW; exact absurd rfl hW
  | cons w W' ih =>
    intro A B _ hWws h
    have h' : x <:+: A ++ w :: (W' ++ B) := by simpa using h
    rcases W' with _ | ⟨w2, W''⟩
    · rcases infix_append_ws_single hxws (hWws w (by simp)) h' with hA | hB
      · exact Or.inl hA
      · exact Or.inr (by simpa using hB)
    · rcases infix_append_ws_single hxws (hWws w (by simp)) h' with hA | hR
      · exact Or.inl hA
      · rcases ih [] B (by simp) (fun ch hch => hWws ch (by simp [hch]))
          (by simpa using hR) with h0 | hB
        · exact absurd (List.eq_nil_of_infix_nil h0) hx
        · exact Or.inr hB

/-- A non-empty whitespace-free string that occurs in the text occurs
inside one of the pieces produced by the sentence-splitting scanner. -/
theorem splitSentGo_covers {x : Str} (hx : x ≠ [])
    (hxws : ∀ ch ∈ x, isWS ch = false) :
    ∀ (n : Nat) (rem cur : Str) (prev : Option Char), rem.length ≤ n →
      x <:+: cur ++ rem → ∃ p ∈ splitSentGo n cur prev rem, x <:+: p := by
  intro n
  induction n with
  | zero =>
    intro rem cur prev hlen h
    have : rem = [] := List.length_eq_zero.mp (Nat.le_zero.mp hlen)
    subst this
    rw [splitSentGo]
    exact ⟨cur, by simp, by simpa using h⟩
  | succ n ih =>
    intro rem cur prev hlen h
    match rem with
    | [] =>
      rw [splitSentGo]
      exact ⟨cur, by simp, by simpa using h⟩
    | c :: rest =>
      rw [splitSentGo]
      by_cases hcond : (isWS c && prevEnds prev) = true
      · rw [if_pos hcond]
        have hcw : isWS c = true := by
          exact (Bool.and_eq_true _ _).mp hcond |>.1
        have hsplit : cur ++ c :: rest
            = cur ++ ((c :: rest.takeWhile isWS) ++ rest.dropWhile isWS) := by
          simp [List.takeWhile_append_dropWhile]
        rw [hsplit] at h
        rcases infix_append_ws_run hx hxws (c :: rest.takeWhile isWS) cur
          (rest.dropWhile isWS) (by simp)
          (by
            intro ch hch
            rcases List.mem_cons.mp hch with rfl | hch'
            · exact hcw
            · exact List.mem_takeWhile_imp hch') h with hA | hB
        · exact ⟨cur, by simp, hA⟩
        · have hlen' : (rest.dropWhile isWS).length ≤ n := by
            have := (List.dropWhile_sublist (l := rest) isWS).length_le
            simp at hlen
            omega
          obtain ⟨p, hp, hxp⟩ := ih (rest.dropWhile isWS) [] none hlen' (by simpa using hB)
          exact ⟨p, by simp [hp], hxp⟩
      · rw [if_neg hcond]
        have hlen' : rest.length ≤ n := by simp at hlen; omega
        exact ih rest (cur ++ [c]) (some c) hlen' (by simpa using h)

theorem splitSent_covers {x t : Str} (hx : x ≠ [])
    (hxws : ∀ ch ∈ x, isWS ch = false) (h : x <:+: t) :
    ∃ p ∈ splitSent t, x <:+: p :=
  splitSentGo_covers hx hxws t.length t [] none (le_refl _) (by simpa using h)

/-! ## Lemmas: fence extraction and restoration -/

theorem scanFencesGo_cons_some {n : Nat} {c : Char} {rest content tail : Str}
    (hm : matchFenceAt (c :: rest) = some (content, tail)) :
    scanFencesGo (n + 1) (c :: rest)
      = (content :: (scanFencesGo n tail).1, PH ++ (scanFencesGo n tail).2) := by
  rw [scanFencesGo, hm]

theorem scanFencesGo_cons_none {n : Nat} {c : Char} {rest : Str}
    (hm : matchFenceAt (c :: rest) = none) :
    scanFencesGo (n + 1) (c :: rest)
      = ((scanFencesGo n rest).1, c :: (scanFencesGo n rest).2) := by
  rw [scanFencesGo, hm]

/-- If the scan extracted at least one block, the placeholder occurs in
the rewritten text. -/
theorem scanFences_ph (s : Str) (h : (scanFences s).1 ≠ []) :
    PH <:+: (scanFences s).2 := by
  suffices haux : ∀ (n : Nat) (u : Str), u.length ≤ n → (scanFencesGo n u).1 ≠ [] →
      PH <:+: (scanFencesGo n u).2 from haux s.length s (le_refl _) h
  intro n
  induction n with
  | zero =>
    intro u hlen h1
    have : u = [] := List.length_eq_zero.mp (Nat.le_zero.mp hlen)
    subst this
    rw [scanFencesGo] at h1
    exact absurd rfl h1
  | succ n ih =>
    intro u hlen h1
    match u with
    | [] =>
      rw [scanFencesGo] at h1
      exact absurd rfl h1
    | c :: rest =>
      cases hm : matchFenceAt (c :: rest) with
      | some p =>
        rw [@scanFencesGo_cons_some n c rest p.1 p.2 (by rw [hm])]
        exact (List.prefix_append PH _).isInfix
      | none =>
        rw [scanFencesGo_cons_none hm] at h1 ⊢
        have hlen' : rest.length ≤ n := by simp at hlen; omega
        exact List.infix_cons_iff.mpr (Or.inr (ih rest hlen' h1))

/-- `str.replace` puts the replacement where an occurrence of the (non-
empty) pattern was. -/
theorem replaceAllGo_infix {pat rep : Str} (hpat : pat ≠ []) :
    ∀ (n : Nat) (s : Str), s.length ≤ n → pat <:+: s →
      rep <:+: replaceAllGo n pat rep s := by
  intro n
  induction n with
  | zero =>
    intro s hlen h
    have : s = [] := List.length_eq_zero.mp (Nat.le_zero.mp hlen)
    subst this
    exact absurd (List.eq_nil_of_infix_nil h) hpat
  | succ n ih =>
    intro s hlen h
    match s with
    | [] => exact absurd (List.eq_nil_of_infix_nil h) hpat
    | c :: rest =>
      rw [replaceAllGo]
      split
      · exact (List.prefix_append rep _).isInfix
      · next hcond =>
        have hnp : ¬ pat <+: (c :: rest) := by
          intro hp
          exact hcond ⟨List.isPrefixOf_iff_prefix.mpr hp, hpat⟩
        have hrest : pat <:+: rest := (List.infix_cons_iff.mp h).resolve_left hnp
        have hlen2 : rest.length ≤ n := by simp at hlen; omega
        exact List.infix_cons_iff.mpr (Or.inr (ih rest hlen2 hrest))

theorem replaceAll_infix {pat rep : Str} (hpat : pat ≠ []) (s : Str)
    (h : pat <:+: s) : rep <:+: replaceAll pat rep s :=
  replaceAllGo_infix hpat s.length s (le_refl _) h

/-- The restore loop rewrites the first placeholder-bearing piece with the
current code block. -/
theorem restoreBlocks_first {blocks : List Str} :
    ∀ (pieces : List Str) (ci : Nat), ci < blocks.length →
      (∃ p ∈ pieces, PH <:+: p) →
      ∃ q ∈ restoreBlocks blocks pieces ci, (blocks.getD ci []) <:+: q := by
  intro pieces
  induction pieces with
  | nil =>
    intro ci _ h
    simp at h
  | cons p rest ih =>
    intro ci hci h
    rw [restoreBlocks]
    by_cases hip : PH <:+: p
    · rw [if_pos hip, if_pos hci]
      exact ⟨replaceAll PH (blocks.getD ci []) p, by simp,
        replaceAll_infix (by decide) p hip⟩
    · rw [if_neg hip]
      obtain ⟨p', hp', hphp'⟩ := h
      rcases List.mem_cons.mp hp' with rfl | hmem
      · exact absurd hphp' hip
      · obtain ⟨q, hq, hcq⟩ := ih ci hci ⟨p', hmem, hphp'⟩
        exact ⟨q, by simp [hq], hcq⟩

/-- Members of `_split_into_sentences` output are stripped and
non-empty. -/
theorem splitIntoSentences_clean {t : Str} : ∀ s ∈ splitIntoSentences t, cleanEnds s := by
  intro s hs
  unfold splitIntoSentences at hs
  rw [List.mem_filter] at hs
  obtain ⟨hmap, hne⟩ := hs
  obtain ⟨s0, -, rfl⟩ := List.mem_map.mp hmap
  exact cleanEnds_trim (by simpa using hne)

/-- A clean-ended string occurring in some piece survives the final
strip-and-filter of `_split_into_sentences`. -/
theorem mem_trimFilter_of_infix {c : Str} (hc : cleanEnds c) {p : Str} {l : List Str}
    (hp : p ∈ l) (hcp : c <:+: p) :
    ∃ q ∈ (l.map trim).filter (· ≠ []), c <:+: q := by
  refine ⟨trim p, ?_, infix_trim_of_cleanEnds hc hcp⟩
  rw [List.mem_filter]
  refine ⟨List.mem_map_of_mem trim hp, ?_⟩
  obtain ⟨a, x', rfl⟩ := List.exists_cons_of_ne_nil hc.1
  have ha : a ∈ p := hcp.subset (List.mem_cons_self a x')
  have := trim_ne_nil_of_mem ha (hc.2.1 a rfl)
  simpa using this

/-! ## Lemmas: the chunking loop never loses a unit -/

/-- A clean-ended string inside the accumulating chunk ends up in some
emitted chunk (the accumulator only grows until it is emitted, and the
final flush emits it because it contains a non-whitespace character). -/
theorem chunkLoop_keeps {cs ov : Nat} {pg : PageText} {all : List Str} {x : Str}
    (hx : cleanEnds x) :
    ∀ (rest : List Str) (i : Nat) (cur : Str) (startS : Nat), x <:+: cur →
      ∃ ch ∈ chunkLoop cs ov pg all rest i cur startS, x <:+: ch.text := by
  intro rest
  induction rest with
  | nil =>
    intro i cur startS hcur
    rw [chunkLoop]
    have hne : trim cur ≠ [] := by
      obtain ⟨a, x', rfl⟩ := List.exists_cons_of_ne_nil hx.1
      have ha : a ∈ cur := hcur.subset (List.mem_cons_self a x')
      exact trim_ne_nil_of_mem ha (hx.2.1 a rfl)
    rw [if_pos hne]
    exact ⟨_, List.mem_cons_self _ _, infix_trim_of_cleanEnds hx hcur⟩
  | cons s rest ih =>
    intro i cur startS hcur
    rw [chunkLoop]
    by_cases hcond : cs < cur.length + s.length ∧ cur ≠ []
    · rw [if_pos hcond]
      exact ⟨_, List.mem_cons_self _ _, infix_trim_of_cleanEnds hx hcur⟩
    · rw [if_neg hcond]
      refine ih (i + 1) (cur ++ s ++ [' ']) startS ?_
      exact hcur.trans ((List.prefix_append cur s).trans
        (List.prefix_append (cur ++ s) [' '])).isInfix

/-- Every remaining unit ends up inside some chunk emitted by the loop. -/
theorem chunkLoop_covers {cs ov : Nat} {pg : PageText} {all : List Str} :
    ∀ (rest : List Str), (∀ s ∈ rest, cleanEnds s) →
      ∀ (i : Nat) (cur : Str) (startS : Nat) (s : Str), s ∈ rest →
        ∃ ch ∈ chunkLoop cs ov pg all rest i cur startS, s <:+: ch.text := by
  intro rest
  induction rest with
  | nil =>
    intro _ i cur startS s hs
    simp at hs
  | cons s0 rest ih =>
    intro hclean i cur startS s hs
    rw [chunkLoop]
    rcases List.mem_cons.mp hs with rfl | hmem
    · by_cases hcond : cs < cur.length + s.length ∧ cur ≠ []
      · rw [if_pos hcond]
        obtain ⟨ch, hch, hxch⟩ := chunkLoop_keeps (hclean s (by simp)) rest (i + 1)
          (joinSp ((all.take i).drop (i - ov / 50)) ++ s ++ [' ']) (i - ov / 50)
          (((List.suffix_append (joinSp ((all.take i).drop (i - ov / 50))) s).isInfix).trans
            (List.prefix_append _ [' ']).isInfix)
        exact ⟨ch, List.mem_cons_of_mem _ hch, hxch⟩
      · rw [if_neg hcond]
        exact chunkLoop_keeps (hclean s (by simp)) rest (i + 1) (cur ++ s ++ [' ']) startS
          (((List.suffix_append cur s).isInfix).trans (List.prefix_append _ [' ']).isInfix)
    · have hclean' : ∀ u ∈ rest, cleanEnds u := fun u hu => hclean u (List.mem_cons_of_mem _ hu)
      by_cases hcond : cs < cur.length + s0.length ∧ cur ≠ []
      · rw [if_pos hcond]
        obtain ⟨ch, hch, hxch⟩ := ih hclean' (i + 1)
          (joinSp ((all.take i).drop (i - ov / 50)) ++ s0 ++ [' ']) (i - ov / 50) s hmem
        exact ⟨ch, List.mem_cons_of_mem _ hch, hxch⟩
      · rw [if_neg hcond]
        exact ih hclean' (i + 1) (cur ++ s0 ++ [' ']) startS s hmem

/-- Every sentence unit of a page occurs inside some chunk of that
page. -/
theorem chunkTextPage_covers (cs ov : Nat) (pg : PageText) :
    ∀ s ∈ splitIntoSentences pg.text,
      ∃ ch ∈ chunkTextPage cs ov pg, s <:+: ch.text := by
  intro s hs
  exact chunkLoop_covers (splitIntoSentences pg.text)
    (fun u hu => splitIntoSentences_clean u hu) 0 [] 0 s hs

/-! ## Lemmas: chunk sizes -/

/-- The shape of a possibly oversized chunk body: the overlap window
before unit `i` (empty when `i = 0` or `overlap < 50`) followed by unit
`i` itself, exactly as the loop seeds a fresh chunk. -/
def windowUnit (ov : Nat) (all : List Str) (t : Str) : Prop :=
  ∃ i, ∃ hi : i < all.length,
    t = joinSp ((all.take i).drop (i - ov / 50)) ++ all.get ⟨i, hi⟩

theorem chunkLoop_size {cs ov : Nat} {pg : PageText} {all : List Str} :
    ∀ (rest : List Str) (i : Nat) (cur : Str) (startS : Nat),
      rest = all.drop i →
      ((cur = [] ∧ i = 0) ∨
        ∃ t, cur = t ++ [' '] ∧ (t.length ≤ cs ∨ windowUnit ov all t)) →
      ∀ ch ∈ chunkLoop cs ov pg all rest i cur startS,
        ch.text.length ≤ cs ∨ ∃ t, windowUnit ov all t ∧ ch.text = trim t := by
  intro rest
  induction rest with
  | nil =>
    intro i cur startS _ hinv ch hch
    rw [chunkLoop] at hch
    split at hch
    · next hne =>
      rcases List.mem_cons.mp hch with rfl | h0
      · rcases hinv with ⟨rfl, -⟩ | ⟨t, rfl, ht⟩
        · exact absurd rfl hne
        · rcases ht with hlen | hwu
          · left
            calc (trim (t ++ [' '])).length = (trim t).length := by rw [trim_append_space]
            _ ≤ t.length := trim_length_le t
            _ ≤ cs := hlen
          · right
            exact ⟨t, hwu, trim_append_space t⟩
      · simp at h0
    · simp at hch
  | cons s rest ih =>
    intro i cur startS hrest hinv ch hch
    have hi : i < all.length := by
      by_contra hni
      rw [List.drop_eq_nil_of_le (by omega)] at hrest
      exact List.cons_ne_nil s rest hrest
    have hsi : all.get ⟨i, hi⟩ = s := by
      have h0 : all[i]? = some s := by
        have h1 := List.getElem?_drop all i 0
        rw [← hrest] at h1
        simpa using h1.symm
      rw [List.getElem?_eq_getElem hi] at h0
      simpa [List.get_eq_getElem] using h0
    have hrest' : rest = all.drop (i + 1) := by
      have h1 := List.tail_drop all i
      rw [← hrest] at h1
      simpa using h1
    rw [chunkLoop] at hch
    by_cases hcond : cs < cur.length + s.length ∧ cur ≠ []
    · rw [if_pos hcond] at hch
      rcases List.mem_cons.mp hch with rfl | htail
      · rcases hinv with ⟨rfl, -⟩ | ⟨t, rfl, ht⟩
        · exact absurd rfl hcond.2
        · rcases ht with hlen | hwu
          · left
            show (trim (t ++ [' '])).length ≤ cs
            calc (trim (t ++ [' '])).length = (trim t).length := by rw [trim_append_space]
            _ ≤ t.length := trim_length_le t
            _ ≤ cs := hlen
          · right
            exact ⟨t, hwu, trim_append_space t⟩
      · refine ih (i + 1) _ _ hrest' ?_ ch htail
        right
        refine ⟨joinSp ((all.take i).drop (i - ov / 50)) ++ s, rfl, Or.inr ?_⟩
        exact ⟨i, hi, by rw [hsi]⟩
    · rw [if_neg hcond] at hch
      refine ih (i + 1) _ _ hrest' ?_ ch hch
      right
      refine ⟨cur ++ s, rfl, ?_⟩
      by_cases hc0 : cur = []
      · subst hc0
        rcases hinv with ⟨-, rfl⟩ | ⟨t, ht, -⟩
        · refine Or.inr ⟨0, hi, ?_⟩
          rw [hsi]
          simp [joinSp, List.intercalate]
        · simp at ht
      · left
        have hle : ¬ cs < cur.length + s.length := fun hlt => hcond ⟨hlt, hc0⟩
        rw [List.length_append]
        omega

/-! ## Lemmas: sorting and FAISS search -/

theorem insertS_perm {α : Type} (le : α → α → Bool) (a : α) (l : List α) :
    (insertS le a l).Perm (a :: l) := by
  induction l with
  | nil => rfl
  | cons b l ih =>
    rw [insertS]
    split
    · rfl
    · exact (List.Perm.cons b ih).trans (List.Perm.swap a b l)

theorem stableSort_perm {α : Type} (le : α → α → Bool) (l : List α) :
    (stableSort le l).Perm l := by
  induction l with
  | nil => rfl
  | cons a l ih =>
    rw [stableSort]
    exact (insertS_perm le a (stableSort le l)).trans (ih.cons a)

theorem insertS_sorted {α : Type} {le : α → α → Bool}
    (htrans : ∀ a b c, le a b = true → le b c = true → le a c = true)
    (htotal : ∀ a b, (le a b || le b a) = true)
    {l : List α} (a : α) (h : List.Pairwise (fun x y => le x y = true) l) :
    List.Pairwise (fun x y => le x y = true) (insertS le a l) := by
  induction l with
  | nil => simp [insertS]
  | cons b l ih =>
    rw [insertS]
    split
    · next hab =>
      rw [List.pairwise_cons]
      refine ⟨?_, h⟩
      intro x hx
      rcases List.mem_cons.mp hx with rfl | hxl
      · exact hab
      · exact htrans a b x hab ((List.pairwise_cons.mp h).1 x hxl)
    · next hab =>
      rw [List.pairwise_cons]
      obtain ⟨hb, hl⟩ := List.pairwise_cons.mp h
      refine ⟨?_, ih hl⟩
      intro x hx
      have hx' : x = a ∨ x ∈ l := by
        have := (insertS_perm le a l).mem_iff.mp hx
        simpa using this
      rcases hx' with rfl | hxl
      · have := htotal x b
        rcases Bool.or_eq_true _ _ |>.mp this with h1 | h1
        · exact absurd h1 (by simpa using hab)
        · exact h1
      · exact hb x hxl

theorem stableSort_sorted {α : Type} {le : α → α → Bool}
    (htrans : ∀ a b c, le a b = true → le b c = true → le a c = true)
    (htotal : ∀ a b, (le a b || le b a) = true) (l : List α) :
    List.Pairwise (fun x y => le x y = true) (stableSort le l) := by
  induction l with
  | nil => simp [stableSort]
  | cons a l ih =>
    rw [stableSort]
    exact insertS_sorted htrans htotal a ih

theorem stableSort_of_sorted {α : Type} {le : α → α → Bool} {l : List α}
    (h : List.Pairwise (fun x y => le x y = true) l) : stableSort le l = l := by
  induction l with
  | nil => rfl
  | cons a l ih =>
    obtain ⟨ha, hl⟩ := List.pairwise_cons.mp h
    rw [stableSort, ih hl]
    cases l with
    | nil => rfl
    | cons b l' =>
      rw [insertS, if_pos (ha b (List.mem_cons_self b l'))]

theorem resLE_trans (a b c : SearchResult) (h1 : resLE a b = true)
    (h2 : resLE b c = true) : resLE a c = true := by
  unfold resLE at h1 h2 ⊢
  rw [decide_eq_true_iff] at h1 h2 ⊢
  exact le_trans h2 h1

theorem resLE_total (a b : SearchResult) : (resLE a b || resLE b a) = true := by
  unfold resLE
  rw [Bool.or_eq_true, decide_eq_true_iff, decide_eq_true_iff]
  exact le_total b.score a.score

theorem faissSearch_length (index : List Vec) (q : Vec) (k : Nat) :
    (faissSearch index q k).length = k := by
  simp only [faissSearch, List.length_append, List.length_map, List.length_replicate]
  have h : ((stableSort faissLE (index.enum.map (fun p => (dot q p.2, p.1)))).take k).length
      ≤ k := by
    rw [List.length_take]
    exact Nat.min_le_left _ _
  omega

/-- A FAISS result row is either a real row (non-negative id) or the
padding sentinel row. -/
theorem faissSearch_mem {index : List Vec} {q : Vec} {k : Nat}
    {p : Score × Int} (hp : p ∈ faissSearch index q k) :
    0 ≤ p.2 ∨ p = (-FLT_MAX, -1) := by
  simp only [faissSearch, List.mem_append] at hp
  rcases hp with hp | hp
  · obtain ⟨a, -, rfl⟩ := List.mem_map.mp hp
    exact Or.inl (by simp)
  · exact Or.inr (List.eq_of_mem_replicate hp)

theorem searchKeep_eq_some {st : VectorStore} {threshold : ℚ} {p : Score × Int}
    {r : SearchResult} (h : searchKeep st threshold p = some r) :
    r.score = p.1 ∧ r.index = p.2 ∧ p.2 < (st.metadata.length : Int) ∧
      threshold ≤ p.1 := by
  unfold searchKeep at h
  split at h
  · next hc =>
    obtain ⟨m, -, rfl⟩ := Option.map_eq_some'.mp h
    exact ⟨rfl, rfl, hc.1, hc.2⟩
  · simp at h

/-! ## Concrete instances used by witnesses and counterexamples -/

instance {ε α : Type} [DecidableEq ε] [DecidableEq α] : DecidableEq (Except ε α) :=
  fun x y =>
    match x, y with
    | .error a, .error b =>
      if h : a = b then .isTrue (by rw [h])
      else .isFalse (fun he => h (Except.error.inj he))
    | .error _, .ok _ => .isFalse (fun he => Except.noConfusion he)
    | .ok _, .error _ => .isFalse (fun he => Except.noConfusion he)
    | .ok a, .ok b =>
      if h : a = b then .isTrue (by rw [h])
      else .isFalse (fun he => h (Except.ok.inj he))

/-- A toy encoder for witnesses: every text embeds to the empty
(zero-dimensional) vector, so every inner product is `0`. -/
def demoEnc : Str → Vec := fun _ => []

def demoMeta1 : Metadata := ⟨some "a.pdf".data, some 1, none⟩

def demoMeta2 : Metadata := ⟨some "b.pdf".data, some 2, some "T".data⟩

def demoMeta3 : Metadata := ⟨none, some 0, none⟩

def demoStore : VectorStore := ⟨[[], [], []], [demoMeta1, demoMeta2, demoMeta3]⟩

def demoRes : List SearchResult :=
  [⟨0, demoMeta1, 0⟩, ⟨0, demoMeta2, 1⟩]

/-- A store holding one vector and one metadata entry, used to exhibit
the padding behaviour when `k` exceeds the stored count. -/
def padStore : VectorStore := ⟨[[]], [demoMeta1]⟩

/-- What `similarity_search` on `padStore` returns for `k = 3` at the
sub-sentinel threshold `-FLT_MAX`: one real row and the two padding rows,
whose position `-1` Python's negative indexing resolves to the LAST
metadata entry. -/
def padRes : List SearchResult :=
  [⟨0, demoMeta1, 0⟩, ⟨-FLT_MAX, demoMeta1, -1⟩, ⟨-FLT_MAX, demoMeta1, -1⟩]

/-! ## Claim C1 -/

/-- C1 (counterexample): the FAISS padding sentinel is the finite float
`-FLT_MAX`, so a caller threshold at (or below) it passes the
`score >= threshold` filter for the padding rows, and the
upper-bound-only index check keeps them: the result then contains two
tied rows both carrying position `-1`, falsifying the claimed
earlier-insertion-wins tie-break. -/
theorem C1_counterexample :
    similaritySearch demoEnc padStore ['q'] 3 (-FLT_MAX) = .ok padRes ∧
    ¬ List.Pairwise
        (fun a b => resLE a b = true ∧ (a.score = b.score → a.index < b.index))
        padRes :=
  ⟨by decide, by decide⟩

/-- C1 (amended): for every query, positive `k` and threshold, a
successful `similarity_search` returns at most `k` results, every
returned result scores at least the threshold, and the results are
sorted non-increasingly by score.  The relative order of equal scores is
the backend's emission order, which this code does not determine (the
final Python sort is merely stable); and a threshold at or below the
`-FLT_MAX` sentinel surfaces duplicate tied padding rows. -/
theorem C1_search_contract (enc : Str → Vec) (st : VectorStore) (query : Str)
    (k : Int) (threshold : ℚ) (res : List SearchResult) (hk : 0 < k)
    (h : similaritySearch enc st query k threshold = .ok res) :
    res.length ≤ k.toNat ∧
    (∀ r ∈ res, threshold ≤ r.score) ∧
    List.Pairwise (fun a b => resLE a b = true) res := by
  rw [similaritySearch] at h
  by_cases hq : trim query = []
  · rw [if_pos hq] at h
    have hres : ([] : List SearchResult) = res := by simpa using h
    subst hres
    simp
  · rw [if_neg hq, if_neg (by omega : ¬ k ≤ 0)] at h
    have hres : stableSort resLE ((faissSearch st.vecs (enc query) k.toNat).filterMap
        (searchKeep st threshold)) = res := by simpa using h
    refine ⟨?_, ?_, ?_⟩
    · rw [← hres]
      calc (stableSort resLE ((faissSearch st.vecs (enc query) k.toNat).filterMap
            (searchKeep st threshold))).length
          = ((faissSearch st.vecs (enc query) k.toNat).filterMap
            (searchKeep st threshold)).length :=
            (stableSort_perm resLE _).length_eq
      _ ≤ (faissSearch st.vecs (enc query) k.toNat).length :=
            List.length_filterMap_le _ _
      _ = k.toNat := faissSearch_length st.vecs (enc query) k.toNat
    · intro r hr
      rw [← hres] at hr
      have hr' : r ∈ (faissSearch st.vecs (enc query) k.toNat).filterMap
          (searchKeep st threshold) :=
        (stableSort_perm resLE _).mem_iff.mp hr
      obtain ⟨p, -, hfp⟩ := List.mem_filterMap.mp hr'
      obtain ⟨hrs, -, -, hrt⟩ := searchKeep_eq_some hfp
      rw [hrs]
      exact hrt
    · rw [← hres]
      exact stableSort_sorted resLE_trans resLE_total _

theorem C1_search_contract_witness :
    (0 : Int) < 2 ∧
    (demoRes.length ≤ (2 : Int).toNat ∧
     (∀ r ∈ demoRes, (0 : ℚ) ≤ r.score) ∧
     List.Pairwise (fun a b => resLE a b = true) demoRes) :=
  ⟨by decide,
   C1_search_contract demoEnc demoStore ['q'] 2 0 demoRes (by decide) (by decide)⟩

/-! ## Claim C10 -/

/-- C10 (counterexample): the padding sentinel is the finite `-FLT_MAX`,
so for a threshold at (or below) it the `score >= threshold` comparison
passes and the `idx < len(metadata)` filter — which checks no lower
bound — lets `-1` through: position `-1` is surfaced, and Python's
negative indexing silently attaches the last metadata entry to it. -/
theorem C10_counterexample :
    similaritySearch demoEnc padStore ['q'] 3 (-FLT_MAX) = .ok padRes ∧
    ¬ (∀ r ∈ padRes, 0 ≤ r.index ∧ r.index < (padStore.metadata.length : Int)) :=
  ⟨by decide, by decide⟩

/-- C10 (amended): provided the caller threshold exceeds the `-FLT_MAX`
padding sentinel (any realistic threshold does), every result of a
successful `similarity_search` carries a position that is a valid
non-negative index into the stored metadata: the padding row is rejected
by the score filter alone, since the index filter checks only the upper
bound. -/
theorem C10_result_positions (enc : Str → Vec) (st : VectorStore) (query : Str)
    (k : Int) (threshold : ℚ) (res : List SearchResult)
    (hthr : -FLT_MAX < threshold)
    (h : similaritySearch enc st query k threshold = .ok res) :
    ∀ r ∈ res, 0 ≤ r.index ∧ r.index < (st.metadata.length : Int) := by
  rw [similaritySearch] at h
  by_cases hq : trim query = []
  · rw [if_pos hq] at h
    have hres : ([] : List SearchResult) = res := by simpa using h
    subst hres
    simp
  · rw [if_neg hq] at h
    by_cases hk : k ≤ 0
    · rw [if_pos hk] at h
      simp at h
    · rw [if_neg hk] at h
      have hres : stableSort resLE ((faissSearch st.vecs (enc query) k.toNat).filterMap
          (searchKeep st threshold)) = res := by simpa using h
      intro r hr
      rw [← hres] at hr
      have hr' : r ∈ (faissSearch st.vecs (enc query) k.toNat).filterMap
          (searchKeep st threshold) :=
        (stableSort_perm resLE _).mem_iff.mp hr
      obtain ⟨p, hp, hfp⟩ := List.mem_filterMap.mp hr'
      obtain ⟨hrs, hri, hub, hrt⟩ := searchKeep_eq_some hfp
      refine ⟨?_, by rw [hri]; exact hub⟩
      rw [hri]
      rcases faissSearch_mem hp with h0 | h0
      · exact h0
      · exfalso
        have hp1 : p.1 = -FLT_MAX := by rw [h0]
        rw [hp1] at hrt
        exact absurd hrt (not_le.mpr hthr)

theorem C10_result_positions_witness :
    (-FLT_MAX < (0 : ℚ)) ∧
    (similaritySearch demoEnc demoStore ['q'] 5 0 = .ok
      (demoRes ++ [⟨0, demoMeta3, 2⟩])) ∧
    (∀ r ∈ demoRes ++ [⟨0, demoMeta3, 2⟩],
      0 ≤ r.index ∧ r.index < (demoStore.metadata.length : Int)) :=
  ⟨by decide, by decide,
   C10_result_positions demoEnc demoStore ['q'] 5 0 (demoRes ++ [⟨0, demoMeta3, 2⟩])
     (by decide) (by decide)⟩

/-! ## Claim C5 -/

/-- C5 (amended): an empty or whitespace-only query returns an empty
result without touching the index and without raising, for every `k` and
threshold; but a non-empty query with `k ≤ 0` is passed to the FAISS
backend, which rejects it, so the call raises instead of returning
empty. -/
theorem C5_query_guards (enc : Str → Vec) (st st' : VectorStore) (query : Str)
    (k : Int) (threshold : ℚ) :
    (trim query = [] →
      similaritySearch enc st query k threshold = .ok [] ∧
      similaritySearch enc st query k threshold
        = similaritySearch enc st' query k threshold) ∧
    (trim query ≠ [] → k ≤ 0 →
      similaritySearch enc st query k threshold = .error .nonPositiveK) := by
  constructor
  · intro hq
    rw [similaritySearch, similaritySearch, if_pos hq, if_pos hq]
    exact ⟨rfl, rfl⟩
  · intro hq hk
    rw [similaritySearch, if_neg hq, if_pos hk]

theorem C5_query_guards_witness :
    (trim "  ".data = [] ∧ similaritySearch demoEnc demoStore "  ".data 5 0 = .ok []) ∧
    (trim ['q'] ≠ [] ∧ (0 : Int) ≤ 0 ∧
      similaritySearch demoEnc demoStore ['q'] 0 0 = .error .nonPositiveK) :=
  ⟨⟨by decide, ((C5_query_guards demoEnc demoStore demoStore "  ".data 5 0).1 (by decide)).1⟩,
   ⟨by decide, by decide,
    (C5_query_guards demoEnc demoStore demoStore ['q'] 0 0).2 (by decide) (by decide)⟩⟩

/-- C5 (counterexample): with a non-empty query and `k = 0`, the call
raises the backend error instead of returning the empty list the claim
promises. -/
theorem C5_counterexample :
    similaritySearch demoEnc demoStore ['q'] 0 0 ≠ .ok [] ∧
    similaritySearch demoEnc demoStore ['q'] 0 0 = .error .nonPositiveK :=
  ⟨by decide, by decide⟩

/-! ## Claim C3 -/

/-- C3 (counterexample): an index file with no metadata counterpart
silently yields the empty store instead of failing, and a persisted pair
whose counts disagree (one vector, zero metadata entries) loads without
any error, leaving diverging stats. -/
theorem C3_counterexample :
    construct ⟨some (some [[]]), none⟩ = .ok ⟨[], []⟩ ∧
    construct ⟨some (some [[]]), some (some [])⟩ = .ok ⟨[[]], []⟩ ∧
    (getIndexStats ⟨[[]], []⟩).total_documents ≠ (getIndexStats ⟨[[]], []⟩).index_size :=
  ⟨by decide, by decide, by decide⟩

/-- C3 (amended): construction never fails.  When both persisted files
are present and readable they are loaded even if their counts disagree;
a missing counterpart or an unreadable file silently yields the fresh
empty store. -/
theorem C3_load_behavior (d : Disk) :
    (∃ st, construct d = .ok st) ∧
    (∀ v m, d.indexFile = some (some v) → d.metaFile = some (some m) →
      construct d = .ok ⟨v, m⟩) ∧
    ((d.indexFile = none ∨ d.metaFile = none) → construct d = .ok ⟨[], []⟩) ∧
    ((d.indexFile = some none ∨ d.metaFile = some none) →
      construct d = .ok ⟨[], []⟩) := by
  obtain ⟨fi, fm⟩ := d
  refine ⟨⟨loadExistingIndex ⟨fi, fm⟩, rfl⟩, ?_, ?_, ?_⟩
  · intro v m hv hm
    dsimp only at hv hm
    subst hv hm
    rfl
  · intro h
    dsimp only at h
    rcases h with rfl | rfl
    · cases fm <;> rfl
    · cases fi with
      | none => rfl
      | some fi' => cases fi' <;> rfl
  · intro h
    dsimp only at h
    rcases h with rfl | rfl
    · cases fm with
      | none => rfl
      | some fm' => cases fm' <;> rfl
    · cases fi with
      | none => rfl
      | some fi' => cases fi' <;> rfl

theorem C3_load_behavior_witness :
    construct ⟨some (some [[]]), some (some [demoMeta1])⟩ = .ok ⟨[[]], [demoMeta1]⟩ :=
  (C3_load_behavior ⟨some (some [[]]), some (some [demoMeta1])⟩).2.1
    [[]] [demoMeta1] rfl rfl

/-! ## Claim C4 -/

def demoDoc : Doc := ⟨"hello".data, demoMeta1⟩

def demoDisk : Disk := ⟨none, none⟩

/-- C4 (counterexample): with failing persistence writes, `add` and
`clear` still return successfully — no `IndexIOError` reaches the
caller.  When the first write fails the disk is untouched; when only the
metadata pickle fails the disk is silently left HALF-updated: index file
written, metadata file stale. -/
theorem C4_counterexample :
    addDocuments demoEnc false false demoStore demoDisk [demoDoc]
      = .ok (⟨demoStore.vecs ++ [[]], demoStore.metadata ++ [demoMeta1]⟩, demoDisk) ∧
    addDocuments demoEnc true false demoStore demoDisk [demoDoc]
      = .ok (⟨demoStore.vecs ++ [[]], demoStore.metadata ++ [demoMeta1]⟩,
             ⟨some (some (demoStore.vecs ++ [[]])), none⟩) ∧
    clearIndex false false demoStore demoDisk = .ok (⟨[], []⟩, demoDisk) :=
  ⟨by decide, by decide, by decide⟩

/-- C4 (amended): failures of the two sequential writes inside
`_save_index` are caught and merely logged: `add_documents` and
`clear_index` always return successfully and no `IndexIOError` reaches
the caller; on failure the persisted pair is silently left unchanged
(the `faiss.write_index` step failed) or half-updated — index file
written, metadata file stale — (the metadata pickle step failed). -/
theorem C4_save_swallowed (enc : Str → Vec) (st : VectorStore) (d : Disk)
    (docs : List Doc) :
    (∀ wi wm, ∃ r, addDocuments enc wi wm st d docs = .ok r) ∧
    (∀ wi wm st₀, ∃ r, clearIndex wi wm st₀ d = .ok r) ∧
    (∀ wm st' d', addDocuments enc false wm st d docs = .ok (st', d') → d' = d) ∧
    (∀ wm st₀ st' d', clearIndex false wm st₀ d = .ok (st', d') → d' = d) ∧
    (∀ st' d', docs.filter (fun doc => trim doc.text ≠ []) ≠ [] →
      addDocuments enc true false st d docs = .ok (st', d') →
      d'.indexFile = some (some st'.vecs) ∧ d'.metaFile = d.metaFile) ∧
    (∀ st₀ st' d', clearIndex true false st₀ d = .ok (st', d') →
      d'.indexFile = some (some ([] : List Vec)) ∧ d'.metaFile = d.metaFile) := by
  refine ⟨?_, ?_, ?_, ?_, ?_, ?_⟩
  · intro wi wm
    rw [addDocuments]
    split
    · exact ⟨(st, d), rfl⟩
    · dsimp only
      split
      · exact ⟨(st, d), rfl⟩
      · exact ⟨_, rfl⟩
  · intro wi wm st₀
    exact ⟨_, rfl⟩
  · intro wm st' d' h
    rw [addDocuments] at h
    split at h
    · have h1 := Except.ok.inj h
      rw [Prod.mk.injEq] at h1
      exact h1.2.symm
    · dsimp only at h
      split at h
      · have h1 := Except.ok.inj h
        rw [Prod.mk.injEq] at h1
        exact h1.2.symm
      · have h1 := Except.ok.inj h
        rw [Prod.mk.injEq] at h1
        have h2 := h1.2.symm
        rw [h2]
        rfl
  · intro wm st₀ st' d' h
    have h1 := Except.ok.inj h
    rw [Prod.mk.injEq] at h1
    have h2 := h1.2.symm
    rw [h2]
    rfl
  · intro st' d' hkept h
    rw [addDocuments] at h
    split at h
    · next hdocs =>
      exact absurd (by rw [hdocs]; rfl) hkept
    · dsimp only at h
      split at h
      · next hk2 => exact absurd hk2 hkept
      · have h1 := Except.ok.inj h
        rw [Prod.mk.injEq] at h1
        rw [← h1.1, ← h1.2]
        exact ⟨rfl, rfl⟩
  · intro st₀ st' d' h
    have h1 := Except.ok.inj h
    rw [Prod.mk.injEq] at h1
    rw [← h1.2]
    exact ⟨rfl, rfl⟩

theorem C4_save_swallowed_witness :
    (∃ r, addDocuments demoEnc false false demoStore demoDisk [demoDoc] = .ok r) ∧
    ((⟨some (some (demoStore.vecs ++ [[]])), none⟩ : Disk).indexFile
        = some (some ((⟨demoStore.vecs ++ [[]],
            demoStore.metadata ++ [demoMeta1]⟩ : VectorStore).vecs)) ∧
     (⟨some (some (demoStore.vecs ++ [[]])), none⟩ : Disk).metaFile
        = demoDisk.metaFile) :=
  ⟨(C4_save_swallowed demoEnc demoStore demoDisk [demoDoc]).1 false false,
   (C4_save_swallowed demoEnc demoStore demoDisk [demoDoc]).2.2.2.2.1
     ⟨demoStore.vecs ++ [[]], demoStore.metadata ++ [demoMeta1]⟩
     ⟨some (some (demoStore.vecs ++ [[]])), none⟩ (by decide) (by decide)⟩

/-! ## Claim C9 -/

/-- C9: `total_documents = index_size` holds for the fresh empty store,
after construction from a disk written from a store satisfying it, and
is preserved by every `add_documents` and every `clear_index`; `clear`
then `stats` reports both counts zero. -/
theorem C9_counts_invariant (enc : Str → Vec) :
    ((getIndexStats ⟨[], []⟩).total_documents = (getIndexStats ⟨[], []⟩).index_size) ∧
    (∀ st', construct ⟨none, none⟩ = .ok st' →
      (getIndexStats st').total_documents = (getIndexStats st').index_size) ∧
    (∀ st : VectorStore,
      (getIndexStats st).total_documents = (getIndexStats st).index_size →
      ∀ st', construct (writeDisk st) = .ok st' →
        (getIndexStats st').total_documents = (getIndexStats st').index_size) ∧
    (∀ (wi wm : Bool) (st : VectorStore) (d : Disk) (docs : List Doc) st' d',
      (getIndexStats st).total_documents = (getIndexStats st).index_size →
      addDocuments enc wi wm st d docs = .ok (st', d') →
      (getIndexStats st').total_documents = (getIndexStats st').index_size) ∧
    (∀ (wi wm : Bool) (st₀ : VectorStore) (d : Disk) st' d',
      clearIndex wi wm st₀ d = .ok (st', d') → getIndexStats st' = ⟨0, 0⟩) := by
  refine ⟨rfl, ?_, ?_, ?_, ?_⟩
  · intro st' h
    have h1 := Except.ok.inj h
    rw [← h1]
    rfl
  · intro st hst st' h
    have h1 := Except.ok.inj h
    rw [← h1]
    exact hst
  · intro wi wm st d docs st' d' hst h
    rw [addDocuments] at h
    split at h
    · have h1 := Except.ok.inj h
      rw [Prod.mk.injEq] at h1
      rw [← h1.1]
      exact hst
    · dsimp only at h
      split at h
      · have h1 := Except.ok.inj h
        rw [Prod.mk.injEq] at h1
        rw [← h1.1]
        exact hst
      · have h1 := Except.ok.inj h
        rw [Prod.mk.injEq] at h1
        rw [← h1.1]
        unfold getIndexStats at hst ⊢
        dsimp only at hst ⊢
        rw [List.length_append, List.length_append, List.length_map, List.length_map]
        omega
  · intro wi wm st₀ d st' d' h
    have h1 := Except.ok.inj h
    rw [Prod.mk.injEq] at h1
    rw [← h1.1]
    rfl

theorem C9_counts_invariant_witness :
    (getIndexStats ⟨demoStore.vecs ++ [[]],
      demoStore.metadata ++ [demoMeta1]⟩).total_documents
      = (getIndexStats ⟨demoStore.vecs ++ [[]],
          demoStore.metadata ++ [demoMeta1]⟩).index_size :=
  (C9_counts_invariant demoEnc).2.2.2.1 true true demoStore demoDisk [demoDoc]
    ⟨demoStore.vecs ++ [[]], demoStore.metadata ++ [demoMeta1]⟩
    (writeDisk ⟨demoStore.vecs ++ [[]], demoStore.metadata ++ [demoMeta1]⟩)
    (by decide) (by decide)

/-! ## Claim C7 -/

def c7text : Str :=
  "Vectors store values. Use c() to combine them. Lists hold mixed types.".data

def c7page : PageText := ⟨1, c7text, none⟩

def c7chunk1 : Chunk :=
  ⟨"Vectors store values. Use c() to combine them.".data, 1, 0, 1, []⟩

def c7chunk2 : Chunk := ⟨"Lists hold mixed types.".data, 1, 2, 2, []⟩

/-- C7 (counterexample): the scenario does yield two chunks, but the
second chunk does not begin with the last sentence of the first — with
`overlap = 10` the window `10 // 50 = 0` is empty, so no overlap is
carried over. -/
theorem C7_counterexample :
    chunkText 50 10 [c7page] = [c7chunk1, c7chunk2] ∧
    ¬ ("Use c() to combine them.".data <+: c7chunk2.text) :=
  ⟨by decide, by decide⟩

/-- C7 (amended): the scenario yields exactly two chunks; the second is
exactly the final sentence, with an empty overlap window. -/
theorem C7_concrete_scenario :
    splitIntoSentences c7text
      = ["Vectors store values.".data, "Use c() to combine them.".data,
         "Lists hold mixed types.".data] ∧
    chunkText 50 10 [c7page] = [c7chunk1, c7chunk2] ∧
    c7chunk2.text = "Lists hold mixed types.".data :=
  ⟨by decide, by decide, by decide⟩

/-! ## Claim C2 -/

def c2page : PageText := ⟨1, "aaaaaaaaaaaa".data, none⟩

/-- C2 (counterexample): with `chunk_size = 10` a page consisting of one
12-character sentence (and no code block anywhere) yields a chunk whose
text exceeds the limit without being a code-block unit. -/
theorem C2_counterexample :
    ¬ (∀ ch ∈ chunkText 10 0 [c2page],
        ch.text.length ≤ 10 ∨ ∃ b ∈ findCodeBlocks c2page.text, b <:+: ch.text) := by
  decide

/-- C2 (amended): every chunk respects the size bound, or else its text
is the stripped seed of a fresh chunk — the overlap window followed by a
single unit (in particular a single oversized unit, code block or long
sentence, is kept whole; an overlap-seeded chunk can also exceed the
bound). -/
theorem C2_chunk_size_bound (cs ov : Nat) (pages : List PageText) :
    ∀ ch ∈ chunkText cs ov pages,
      ch.text.length ≤ cs ∨
      ∃ pg ∈ pages, ∃ t, windowUnit ov (splitIntoSentences pg.text) t ∧
        ch.text = trim t := by
  intro ch hch
  unfold chunkText at hch
  rw [List.mem_flatten] at hch
  obtain ⟨l, hl, hchl⟩ := hch
  obtain ⟨pg, hpg, rfl⟩ := List.mem_map.mp hl
  unfold chunkTextPage at hchl
  have hsz := @chunkLoop_size cs ov pg (splitIntoSentences pg.text)
    (splitIntoSentences pg.text) 0 [] 0
    (by simp) (Or.inl ⟨rfl, rfl⟩) ch hchl
  rcases hsz with h | ⟨t, hwu, ht⟩
  · exact Or.inl h
  · exact Or.inr ⟨pg, hpg, t, hwu, ht⟩

theorem C2_chunk_size_bound_witness :
    (⟨"aaaaaaaaaaaa".data, 1, 0, 0, []⟩ : Chunk).text.length ≤ 10 ∨
    ∃ pg ∈ [c2page], ∃ t, windowUnit 0 (splitIntoSentences pg.text) t ∧
      (⟨"aaaaaaaaaaaa".data, 1, 0, 0, []⟩ : Chunk).text = trim t :=
  C2_chunk_size_bound 10 0 [c2page] ⟨"aaaaaaaaaaaa".data, 1, 0, 0, []⟩ (by decide)

/-! ## Claim C6 -/

def c6fence : Str := "```r\nx\n```".data

def c6page : PageText := ⟨1, c6fence, none⟩

/-- C6 (counterexample): for a page consisting exactly of one fenced
block, no chunk contains the fenced block byte-for-byte — the fence
delimiters are stripped during sentence splitting (the single chunk is
just the inner content). -/
theorem C6_counterexample :
    ¬ ∃ ch ∈ chunkText 100 0 [c6page], c6fence <:+: ch.text := by
  decide

/-- C6 (amended): the fence delimiters are stripped, but the inner
content of the first extracted fenced block — stripped and non-empty —
appears intact inside at least one output chunk (overlap may duplicate
it into a second chunk, so "at least one", not "exactly one"). -/
theorem C6_code_content_preserved (cs ov : Nat) (pg : PageText) (c : Str)
    (rest : List Str) (hblocks : findCodeBlocks pg.text = c :: rest)
    (hc : trim c = c) (hne : c ≠ []) :
    ∃ ch ∈ chunkText cs ov [pg], c <:+: ch.text := by
  have hb : (scanFences pg.text).1 ≠ [] := by
    have he : (scanFences pg.text).1 = findCodeBlocks pg.text := rfl
    rw [he, hblocks]
    simp
  have hph : PH <:+: subCodeBlocks pg.text := scanFences_ph pg.text hb
  have hPHne : PH ≠ [] := by decide
  have hPHws : ∀ chx ∈ PH, isWS chx = false := by decide
  obtain ⟨p, hp, hPHp⟩ := splitSent_covers hPHne hPHws hph
  obtain ⟨q, hq, hcq⟩ := @restoreBlocks_first (findCodeBlocks pg.text)
    (splitSent (subCodeBlocks pg.text)) 0 (by rw [hblocks]; simp) ⟨p, hp, hPHp⟩
  have hgetD : (findCodeBlocks pg.text).getD 0 [] = c := by rw [hblocks]; rfl
  rw [hgetD] at hcq
  have hclean : cleanEnds c := cleanEnds_of_trim_eq hc hne
  obtain ⟨q', hq', hcq'⟩ := mem_trimFilter_of_infix hclean hq hcq
  have hq'' : q' ∈ splitIntoSentences pg.text := hq'
  obtain ⟨ch, hch, hsc⟩ := chunkTextPage_covers cs ov pg q' hq''
  refine ⟨ch, ?_, hcq'.trans hsc⟩
  unfold chunkText
  simp only [List.map_cons, List.map_nil, List.flatten, List.append_nil]
  simpa using hch

theorem C6_code_content_preserved_witness :
    ∃ ch ∈ chunkText 100 0 [⟨1, "A. ```r\nx <- 1\n``` B.".data, none⟩],
      "x <- 1".data <:+: ch.text :=
  C6_code_content_preserved 100 0 ⟨1, "A. ```r\nx <- 1\n``` B.".data, none⟩
    "x <- 1".data [] (by decide) (by decide) (by decide)

/-! ## Claim C8 -/

def c8store : VectorStore := ⟨[[]], [demoMeta1]⟩

def c8line : Str := "[Reference 1]  - Page 1 (Relevance: 0.000)".data

/-- C8 (counterexample): with a stored chunk whose metadata has no title,
the reference record's module falls back to the source identifier, but
the context line renders the empty title — the source identifier never
appears anywhere in the context string, contradicting the claimed
`<title-or-source>` context line. -/
theorem C8_counterexample :
    searchWithContext demoEnc c8store ['q'] 1 0
      = .ok (c8line, [⟨"a.pdf".data, "1".data, 0, "a.pdf".data⟩]) ∧
    ¬ ("a.pdf".data <:+: c8line) :=
  ⟨by decide, by decide⟩

/-- C8 (amended): `search_with_context` forwards the search results: one
context line `"[Reference i] <title> - Page <page> (Relevance: <score to
3 decimals>)"` per result — rendering the raw (possibly empty) title,
not title-or-source — and one reference whose module is the title when
non-empty and otherwise the source, whose page is the stringified page
or empty, and whose score is passed through; when the search is empty
the formula degenerates to an empty context string and no references. -/
theorem C8_context_shape (enc : Str → Vec) (st : VectorStore) (query : Str)
    (k : Int) (threshold : ℚ) (res : List SearchResult)
    (h : similaritySearch enc st query k threshold = .ok res) :
    searchWithContext enc st query k threshold = .ok
      (List.intercalate ['\n'] (res.enum.map (fun p =>
        "[Reference ".data ++ natToStr (p.1 + 1) ++ "] ".data ++ mdTitle p.2.metadata
          ++ " - Page ".data ++ mdPageRender p.2.metadata
          ++ " (Relevance: ".data ++ fmt3 p.2.score ++ ")".data)),
       res.map (fun r =>
         ⟨if mdTitle r.metadata ≠ [] then mdTitle r.metadata else mdSource r.metadata,
          mdPageRef r.metadata, r.score, mdSource r.metadata⟩)) := by
  rw [searchWithContext, h]
  dsimp only
  by_cases hres : res = []
  · subst hres
    simp [List.intercalate]
  · rw [if_neg hres]
    rfl

theorem C8_context_shape_witness :
    searchWithContext demoEnc c8store ['q'] 1 0 = .ok
      (List.intercalate ['\n']
        (([⟨0, demoMeta1, 0⟩] : List SearchResult).enum.map (fun p =>
          "[Reference ".data ++ natToStr (p.1 + 1) ++ "] ".data ++ mdTitle p.2.metadata
            ++ " - Page ".data ++ mdPageRender p.2.metadata
            ++ " (Relevance: ".data ++ fmt3 p.2.score ++ ")".data)),
       ([⟨0, demoMeta1, 0⟩] : List SearchResult).map (fun r =>
         ⟨if mdTitle r.metadata ≠ [] then mdTitle r.metadata else mdSource r.metadata,
          mdPageRef r.metadata, r.score, mdSource r.metadata⟩)) :=
  C8_context_shape demoEnc c8store ['q'] 1 0 [⟨0, demoMeta1, 0⟩] (by decide)

end ThinkR
